import Mathlib

/-!
# Verification of the Ljos standard-library C++ runtime

Shallow embedding of `src/compiler/runtime/std/cpp/{string,fs,math,io}.hpp`.
C++ `std::string` values are modelled as `List Char`; `size_t` results are
modelled as `Nat` with the conversion `(size_t)(-1) = 2^64 - 1` made explicit;
C++ `int` values are modelled as `Int` with the `std::stoi` range check
`[-2^31, 2^31 - 1]` made explicit where the source performs it.
-/

set_option maxHeartbeats 1000000

namespace ljos

namespace str

/-- `std::string::find(needle)` restricted to a suffix: position of the first
occurrence of `d` in `s` (`find` returns the smallest admissible position;
an empty needle matches at position 0). `none` models `std::string::npos`. -/
def findSub (s d : List Char) : Option Nat :=
  if d.isPrefixOf s then some 0
  else
    match s with
    | [] => none
    | _ :: t => (findSub t d).map (fun n => n + 1)

/-- `std::string::find(needle, start)`: smallest occurrence position `≥ start`,
`none` when there is none or `start` exceeds the string length. -/
def strFind (s search : List Char) (start : Nat) : Option Nat :=
  if s.length < start then none
  else (findSub (s.drop start) search).map (fun q => start + q)

/-- The value of `(size_t)(-1)`, which is also `std::string::npos`, on the
64-bit targets the runtime is compiled for. -/
def nposVal : Nat := 2 ^ 64 - 1

/-- `ljos::str::indexOf` (string.hpp:53-56).  The C++ function is declared to
return `size_t`; the expression `pos == npos ? -1 : pos` converts `-1` to
`size_t`, which is `npos` itself, so on "not found" the function returns the
huge unsigned value `2^64 - 1`. -/
def indexOf (s search : List Char) (start : Nat := 0) : Nat :=
  match strFind s search start with
  | none => nposVal
  | some pos => pos

/-- `ljos::str::contains` (string.hpp:63-65): `s.find(search) != npos`. -/
def contains (s search : List Char) : Bool :=
  (strFind s search 0).isSome

/-- Position of the last occurrence of `d` in `s`, modelling
`std::string::rfind(needle)` (an empty needle matches at `s.length`). -/
def rfindSub (s d : List Char) : Option Nat :=
  (((List.range (s.length + 1)).filter (fun p => d.isPrefixOf (s.drop p)))).getLast?

/-- `ljos::str::lastIndexOf` (string.hpp:58-61); like `indexOf` it is declared
to return `size_t`, so "not found" yields `2^64 - 1`. -/
def lastIndexOf (s search : List Char) : Nat :=
  match rfindSub s search with
  | none => nposVal
  | some pos => pos

theorem findSub_some_bound {s d : List Char} {p : Nat}
    (h : findSub s d = some p) : p + d.length ≤ s.length := by
  induction s generalizing p with
  | nil =>
    rw [findSub] at h
    split at h
    · rename_i hp
      simp only [Option.some.injEq] at h
      subst h
      simpa using List.IsPrefix.length_le (List.isPrefixOf_iff_prefix.mp hp)
    · simp at h
  | cons c t ih =>
    rw [findSub] at h
    split at h
    · rename_i hp
      simp only [Option.some.injEq] at h
      subst h
      simpa using List.IsPrefix.length_le (List.isPrefixOf_iff_prefix.mp hp)
    · simp only [Option.map_eq_some'] at h
      obtain ⟨q, hq, rfl⟩ := h
      have := ih hq
      simp only [List.length_cons]
      omega

theorem findSub_some_decomp {s d : List Char} {p : Nat}
    (h : findSub s d = some p) :
    s = s.take p ++ d ++ s.drop (p + d.length) := by
  induction s generalizing p with
  | nil =>
    rw [findSub] at h
    split at h
    · rename_i hp
      simp only [Option.some.injEq] at h
      subst h
      have := List.isPrefixOf_iff_prefix.mp hp
      have hd : d = [] := List.prefix_nil.mp this
      simp [hd]
    · simp at h
  | cons c t ih =>
    rw [findSub] at h
    split at h
    · rename_i hp
      simp only [Option.some.injEq] at h
      subst h
      obtain ⟨r, hr⟩ := List.isPrefixOf_iff_prefix.mp hp
      conv_lhs => rw [← hr]
      rw [← hr]
      simp [List.drop_left]
    · simp only [Option.map_eq_some'] at h
      obtain ⟨q, hq, rfl⟩ := h
      have := ih hq
      simp only [List.take_succ_cons, List.drop_succ_cons]
      conv_lhs => rw [this]
      simp [Nat.add_right_comm q 1 d.length]

theorem findSub_none_not_prefix {s d : List Char} (h : findSub s d = none)
    {p : Nat} : ¬ d.isPrefixOf (s.drop p) := by
  induction s generalizing p with
  | nil =>
    rw [findSub] at h
    split at h
    · simp at h
    · rename_i hp
      simpa using hp
  | cons c t ih =>
    rw [findSub] at h
    split at h
    · simp at h
    · rename_i hp
      simp only [Option.map_eq_none'] at h
      match p with
      | 0 => simpa using hp
      | q + 1 => simpa using ih h

/-- `ljos::str::slice` (string.hpp:43-49).  `int` arithmetic is modelled as
`Int`; `s.substr(start, min(end, len) - start)` becomes `drop`/`take`. -/
def slice (s : List Char) (start stop : Int) : List Char :=
  let len : Int := s.length
  let start1 := if start < 0 then max 0 (len + start) else start
  let stop1 := if stop < 0 then len + stop else stop
  if start1 ≥ len ∨ start1 ≥ stop1 then []
  else (s.drop start1.toNat).take (min stop1 len - start1).toNat

/-- The `while` loop of `ljos::str::split` for a nonempty delimiter, embedded
as recursion on the unscanned suffix: each iteration emits the text before
the first occurrence of the delimiter and continues right after it. -/
def splitLoop (s delimiter : List Char) (hd : delimiter ≠ []) : List (List Char) :=
  match hfind : findSub s delimiter with
  | none => [s]
  | some p => s.take p :: splitLoop (s.drop (p + delimiter.length)) delimiter hd
termination_by s.length
decreasing_by
  have hb := findSub_some_bound hfind
  have hdl : 1 ≤ delimiter.length := by
    cases delimiter with
    | nil => exact absurd rfl hd
    | cons a l => simp
  simp only [List.length_drop]
  omega

/-- `ljos::str::split` (string.hpp:116-136).  With an empty delimiter the
source pushes each character separately; otherwise it runs the prefix-search
loop. -/
def split (s delimiter : List Char) : List (List Char) :=
  if hd : delimiter = [] then s.map (fun c => [c])
  else splitLoop s delimiter hd

/-- `ljos::str::join` (string.hpp:138-147): first part, then
`delimiter << part` for each further part. -/
def join (parts : List (List Char)) (delimiter : List Char) : List Char :=
  match parts with
  | [] => []
  | [x] => x
  | x :: xs => x ++ delimiter ++ join xs delimiter

/-- The `while` loop of `ljos::str::replace`, which rescans `result` from
`pos + to.length`, embedded as recursion on the text after the replaced
occurrence (the search never re-enters the emitted prefix or the inserted
replacement). -/
def replaceLoop (s frm tov : List Char) (hf : frm ≠ []) : List Char :=
  match hfind : findSub s frm with
  | none => s
  | some p => s.take p ++ tov ++ replaceLoop (s.drop (p + frm.length)) frm tov hf
termination_by s.length
decreasing_by
  have hb := findSub_some_bound hfind
  have hfl : 1 ≤ frm.length := by
    cases frm with
    | nil => exact absurd rfl hf
    | cons a l => simp
  simp only [List.length_drop]
  omega

/-- `ljos::str::replace` (string.hpp:151-161), dispatching on the
`from.empty()` guard. -/
def replace (s frm tov : List Char) : List Char :=
  if hf : frm = [] then s else replaceLoop s frm tov hf

/-- `ljos::str::replaceFirst` (string.hpp:163-170).  There is no empty-needle
guard: `s.find("")` is 0, and `result.replace(0, 0, to)` inserts `to` at the
front. -/
def replaceFirst (s frm tov : List Char) : List Char :=
  match findSub s frm with
  | none => s
  | some p => s.take p ++ tov ++ s.drop (p + frm.length)

/-- Whitespace skipped by `strtol`/`std::stoi` in the "C" locale. -/
def isStdSpace (c : Char) : Bool :=
  c == ' ' || c == '\t' || c == '\n' || c == '\x0b' || c == '\x0c' || c == '\r'

/-- Numeric value of a run of decimal digits. -/
def digitsVal (ds : List Char) : Nat :=
  ds.foldl (fun a c => a * 10 + (c.toNat - 48)) 0

/-- The integer prefix accepted by `std::stoi(s)` (base 10): optional
whitespace, an optional single sign, then one or more decimal digits;
`none` when no digit follows (the `std::invalid_argument` case). -/
def parseIntPrefix (s : List Char) : Option Int :=
  let s1 := s.dropWhile isStdSpace
  let (sign, s2) : Int × List Char :=
    match s1 with
    | '-' :: r => (-1, r)
    | '+' :: r => (1, r)
    | _ => (1, s1)
  let ds := s2.takeWhile Char.isDigit
  if ds = [] then none else some (sign * (digitsVal ds : Int))

/-- `ljos::str::toInt` (string.hpp:197-203): `std::stoi` inside
`try/catch(...)`.  `stoi` parses the integer prefix, throws
`std::invalid_argument` when there is none and `std::out_of_range` when the
value does not fit in `int`; both are caught and yield `defaultValue`. -/
def toInt (s : List Char) (defaultValue : Int) : Int :=
  match parseIntPrefix s with
  | none => defaultValue
  | some v => if v < -(2 ^ 31) ∨ v > 2 ^ 31 - 1 then defaultValue else v

/-- `ljos::str::isNumeric` (string.hpp:228-234). -/
def isNumeric (s : List Char) : Bool :=
  !s.isEmpty && s.all (fun c => c.isDigit || c == '.' || c == '-' || c == '+')

/-- Slice semantics as the specification words it: negative indices resolved
as `length + index`, both bounds clamped into `[0, length]`, empty result
when `start ≥ end` after clamping.  Stated separately from `slice` so the
two can be compared. -/
def sliceSpec (s : List Char) (start stop : Int) : List Char :=
  let len : Int := s.length
  let start2 := min len (max 0 (if start < 0 then len + start else start))
  let stop2 := min len (max 0 (if stop < 0 then len + stop else stop))
  if start2 ≥ stop2 then [] else (s.drop start2.toNat).take (stop2 - start2).toNat

/-- `s` begins with an integer in the sense of `strtol` base 10: optional
C-locale whitespace, then an optional single sign, then at least one decimal
digit.  Stated as a decomposition, independently of the parser. -/
def hasIntPrefix (s : List Char) : Prop :=
  ∃ w g ds r : List Char,
    s = w ++ g ++ ds ++ r ∧
    (∀ c ∈ w, isStdSpace c = true) ∧
    (g = [] ∨ g = ['+'] ∨ g = ['-']) ∧
    ds ≠ [] ∧
    (∀ c ∈ ds, c.isDigit = true)

end str

namespace fs

/-- Abstract state of the directory tree: the set of directories that exist,
each named by its absolute component path. -/
structure FS where
  dirs : List (List String)

/-- The nonempty component prefixes of a path, shortest first. -/
def prefixesOf (p : List String) : List (List String) :=
  (List.range p.length).map (fun i => p.take (i + 1))

/-- A directory tree is well formed when every parent of an existing
directory also exists. -/
def wf (fs : FS) : Prop :=
  ∀ p ∈ fs.dirs, ∀ q ∈ prefixesOf p, q ∈ fs.dirs

/-- `ljos::fs::isDir` (fs.hpp:81-83): `std::filesystem::is_directory`. -/
def isDir (fs : FS) (p : List String) : Bool :=
  p ∈ fs.dirs

/-- `ljos::fs::mkdirp` (fs.hpp:114-116): `std::filesystem::create_directories`,
modelled per C++17 [fs.op.create.directories]: every missing component of `p`
is created, no error is raised when `p` already names a directory, and the
return value is `true` iff a directory was created for `p` — so it is `false`
when `p` already exists. -/
def mkdirp (fs : FS) (p : List String) : Bool × FS :=
  (p ∉ fs.dirs,
   ⟨(prefixesOf p).foldl (fun acc q => if q ∈ acc then acc else acc ++ [q]) fs.dirs⟩)

end fs

namespace math

/-- State of `std::mt19937`: 624 32-bit words plus the draw index. -/
structure MTState where
  mt : List Nat
  mti : Nat

/-- Seed-initialization recurrence of `std::mt19937`:
`x_i = (1812433253 * (x_{i-1} xor (x_{i-1} >> 30)) + i) mod 2^32`. -/
def mtInitAux (prev : Nat) (i : Nat) : Nat → List Nat
  | 0 => []
  | n + 1 =>
    let x := (1812433253 * (Nat.xor prev (prev >>> 30)) + i) % 2 ^ 32
    x :: mtInitAux x (i + 1) n

/-- The engine state produced by `std::mt19937::seed(s)`: the full 624-word
state vector is recomputed from `s` alone and the index reset. -/
def seedEngine (s : Nat) : MTState :=
  let x0 := s % 2 ^ 32
  ⟨x0 :: mtInitAux x0 1 623, 624⟩

/-- `ljos::math::seed` (math.hpp:109-111): `getRandomEngine().seed(s)`
replaces the whole engine state, discarding whatever state (e.g. the
`random_device`-seeded initial one) the global engine held before. -/
def seedOp (_ : MTState) (s : Nat) : MTState := seedEngine s

/-- One step of the mt19937 twist; the in-place update order of the C++
generation loop is preserved (later steps read already-updated words). -/
def twistStep (mt : List Nat) (i : Nat) : List Nat :=
  let y := mt.getD i 0 / 2 ^ 31 * 2 ^ 31 + mt.getD ((i + 1) % 624) 0 % 2 ^ 31
  let v := Nat.xor (Nat.xor (mt.getD ((i + 397) % 624) 0) (y / 2))
      (if y % 2 = 1 then 0x9908b0df else 0)
  mt.set i v

/-- The mt19937 state transition that regenerates all 624 words. -/
def twist (mt : List Nat) : List Nat :=
  (List.range 624).foldl twistStep mt

/-- The mt19937 tempering transform applied to each raw word. -/
def temper (y : Nat) : Nat :=
  let y1 := Nat.xor y (y >>> 11)
  let y2 := Nat.xor y1 ((y1 <<< 7) &&& 0x9d2c5680)
  let y3 := Nat.xor y2 ((y2 <<< 15) &&& 0xefc60000)
  Nat.xor y3 (y3 >>> 18)

/-- One raw 32-bit draw from the engine (`operator()` of `std::mt19937`). -/
def nextU32 (st : MTState) : Nat × MTState :=
  let st1 := if st.mti ≥ 624 then MTState.mk (twist st.mt) 0 else st
  (temper (st1.mt.getD st1.mti 0), ⟨st1.mt, st1.mti + 1⟩)

/-- `ljos::math::randomInt` (math.hpp:97-100):
`std::uniform_int_distribution<int>(min, max)(engine)`.  The standard leaves
the mapping from engine outputs to `[min, max]` implementation-defined but
requires it to be a deterministic function of the engine stream with values
in `[min, max]`; it is modelled as modular reduction of one engine draw,
which satisfies both requirements. -/
def randomInt (lo hi : Int) (st : MTState) : Int × MTState :=
  let (o, st') := nextU32 st
  (lo + Int.ofNat (o % (hi - lo + 1).toNat), st')

/-- A call to a draw function of the module, with its arguments. -/
inductive DrawCall where
  | rInt (lo hi : Int)

/-- The ordered outputs of a sequence of draw calls threaded through the
global engine state. -/
def runCalls (st : MTState) (calls : List DrawCall) : List Int :=
  match calls with
  | [] => []
  | DrawCall.rInt lo hi :: rest =>
    let (v, st') := randomInt lo hi st
    v :: runCalls st' rest

end math

end ljos

namespace ljos.str

/-- C5: `slice` resolves a negative index as `length + index`, clamps both
bounds into `[0, length]`, and returns the empty value when `start ≥ end`
after clamping — it agrees with the specification's slice semantics on every
input — and `slice("hello", -3, -1) = "ll"`, `slice("hello", 10, 20) = ""`,
`slice("hello", 1, 100) = "ello"`. -/
theorem slice_matches_spec :
    (∀ (s : List Char) (start stop : Int), slice s start stop = sliceSpec s start stop)
    ∧ slice "hello".toList (-3) (-1) = "ll".toList
    ∧ slice "hello".toList 10 20 = []
    ∧ slice "hello".toList 1 100 = "ello".toList := by
  refine ⟨fun s start stop => ?_, by decide, by decide, by decide⟩
  simp only [slice, sliceSpec]
  split_ifs <;>
    first
      | rfl
      | omega
      | (rename_i h1 h2
         exfalso
         omega)
      | (congr 1
         · omega
         · congr 1
           omega)

end ljos.str

namespace ljos.str

/-- C10: `isNumeric(s)` is true iff `s` is non-empty and every character is a
decimal digit, `'.'`, `'-'` or `'+'`; it accepts `"+-."` and `"1.2.3"`, and
`isNumeric` does not imply parseability: `toInt("+-.", d)` falls back to the
default for every `d`. -/
theorem isNumeric_charset :
    (∀ s : List Char, isNumeric s = true ↔
      (s ≠ [] ∧ ∀ c ∈ s, (c.isDigit = true ∨ c = '.' ∨ c = '-' ∨ c = '+')))
    ∧ isNumeric "+-.".toList = true
    ∧ isNumeric "1.2.3".toList = true
    ∧ (∀ d : Int, toInt "+-.".toList d = d) := by
  refine ⟨fun s => ?_, by decide, by decide, fun d => rfl⟩
  simp [isNumeric, List.all_eq_true, List.isEmpty_iff, or_assoc]

/-- C2: at a not-found input, `indexOf` and `lastIndexOf` — declared to
return `size_t` — yield `(size_t)(-1) = npos = 2^64 - 1`, a huge positive
unsigned value, not a signed `-1`. -/
theorem indexOf_notFound_wraps_unsigned :
    indexOf "a".toList "b".toList = 2 ^ 64 - 1
    ∧ lastIndexOf "a".toList "b".toList = 2 ^ 64 - 1
    ∧ 2 ^ 63 < indexOf "a".toList "b".toList := by
  refine ⟨rfl, rfl, by decide⟩

/-- C3: replacing an empty search text is a no-op for `replace` but not for
`replaceFirst`, which inserts the replacement at the front:
`replaceFirst("hello", "", "x") = "xhello" ≠ "hello"`. -/
theorem replaceFirst_empty_needle_not_noop :
    replace "hello".toList [] "x".toList = "hello".toList
    ∧ replaceFirst "hello".toList [] "x".toList = "xhello".toList
    ∧ replaceFirst "hello".toList [] "x".toList ≠ "hello".toList := by
  refine ⟨rfl, by decide, by decide⟩

end ljos.str

namespace ljos.str

theorem parseIntPrefix_some_hasIntPrefix {s : List Char} {v : Int}
    (h : parseIntPrefix s = some v) : hasIntPrefix s := by
  have hsplit : s = s.takeWhile isStdSpace ++ s.dropWhile isStdSpace :=
    (List.takeWhile_append_dropWhile isStdSpace s).symm
  have hw : ∀ c ∈ s.takeWhile isStdSpace, isStdSpace c = true :=
    fun c hc => List.mem_takeWhile_imp hc
  simp only [parseIntPrefix] at h
  split at h
  · exact absurd h (by simp)
  · rename_i hds
    clear h
    split at hds
    · rename_i r heq
      refine ⟨s.takeWhile isStdSpace, ['-'], r.takeWhile Char.isDigit,
        r.dropWhile Char.isDigit, ?_, hw, by tauto, by simpa using hds,
        fun c hc => List.mem_takeWhile_imp hc⟩
      conv_lhs => rw [hsplit, heq]
      simp [List.takeWhile_append_dropWhile]
    · rename_i r heq
      refine ⟨s.takeWhile isStdSpace, ['+'], r.takeWhile Char.isDigit,
        r.dropWhile Char.isDigit, ?_, hw, by tauto, by simpa using hds,
        fun c hc => List.mem_takeWhile_imp hc⟩
      conv_lhs => rw [hsplit, heq]
      simp [List.takeWhile_append_dropWhile]
    · refine ⟨s.takeWhile isStdSpace, [], (s.dropWhile isStdSpace).takeWhile Char.isDigit,
        (s.dropWhile isStdSpace).dropWhile Char.isDigit, ?_, hw, by tauto,
        by simpa using hds, fun c hc => List.mem_takeWhile_imp hc⟩
      conv_lhs => rw [hsplit]
      simp [List.takeWhile_append_dropWhile]

end ljos.str

namespace ljos.str

theorem hasIntPrefix_has_digit {s : List Char} (h : hasIntPrefix s) :
    ∃ c ∈ s, c.isDigit = true := by
  obtain ⟨w, g, ds, r, rfl, hw, hg, hne, hds⟩ := h
  cases ds with
  | nil => exact absurd rfl hne
  | cons c t => exact ⟨c, by simp, hds c (by simp)⟩

/-- C1 counterexample: `"42x"` is malformed as an integer, yet
`toInt("42x", -1)` returns `42` (the `std::stoi` prefix parse), not the
caller-supplied default `-1`. -/
theorem toInt_42x_not_default :
    toInt "42x".toList (-1) = 42 ∧ toInt "42x".toList (-1) ≠ -1 := by decide

/-- C1 (amended): `toInt` never raises (it is total) and returns the
caller-supplied default whenever `s` carries no integer prefix in the
`strtol` sense — no digit after optional whitespace and an optional sign —
but a valid prefix followed by trailing garbage parses:
`toInt("42x", -1) = 42` and `toInt("42", -1) = 42`. -/
theorem toInt_default_on_malformed :
    (∀ (s : List Char) (d : Int), ¬ hasIntPrefix s → toInt s d = d)
    ∧ toInt "42x".toList (-1) = 42
    ∧ toInt "42".toList (-1) = 42 := by
  refine ⟨fun s d hn => ?_, by decide, by decide⟩
  cases hp : parseIntPrefix s with
  | none => simp [toInt, hp]
  | some v => exact absurd (parseIntPrefix_some_hasIntPrefix hp) hn

/-- Witness for C1's amended theorem at the concrete input `"x"`. -/
theorem toInt_default_on_malformed_witness :
    ¬ hasIntPrefix "x".toList ∧ toInt "x".toList (-1) = -1 := by
  have hnd : ¬ ∃ c ∈ "x".toList, c.isDigit = true := by decide
  have hn : ¬ hasIntPrefix "x".toList := fun h => hnd (hasIntPrefix_has_digit h)
  exact ⟨hn, toInt_default_on_malformed.1 _ _ hn⟩

end ljos.str

namespace ljos.str

/-- C6: `indexOf(s, t)` returns the "not found" sentinel — the value the
source writes as `-1`, i.e. `npos` — if and only if `contains(s, t)` is
false, for every string short enough to exist in a C++ process. -/
theorem indexOf_sentinel_iff_not_contains (s t : List Char)
    (h : s.length < 2 ^ 64 - 1) :
    (indexOf s t = nposVal ↔ contains s t = false) := by
  unfold indexOf contains strFind
  have h0 : ¬ s.length < 0 := by omega
  simp only [if_neg h0]
  cases hf : findSub s t with
  | none => simp [hf]
  | some p =>
    have hb := findSub_some_bound hf
    simp only [List.drop_zero] at hf ⊢
    rw [hf]
    simp [nposVal]
    omega

/-- Witness for C6 at the concrete input `s = "ab"`, `t = "b"`. -/
theorem indexOf_sentinel_iff_not_contains_witness :
    ("ab".toList.length < 2 ^ 64 - 1)
    ∧ (indexOf "ab".toList "b".toList = nposVal
        ↔ contains "ab".toList "b".toList = false) :=
  ⟨by decide, indexOf_sentinel_iff_not_contains _ _ (by decide)⟩

end ljos.str

namespace ljos.str

theorem splitLoop_ne_nil (s d : List Char) (hd : d ≠ []) :
    splitLoop s d hd ≠ [] := by
  rw [splitLoop]
  split <;> simp

theorem join_cons_of_ne_nil {xs : List (List Char)} (h : xs ≠ [])
    (x d : List Char) : join (x :: xs) d = x ++ d ++ join xs d := by
  cases xs with
  | nil => exact absurd rfl h
  | cons y ys => rfl

theorem join_splitLoop (d : List Char) (hd : d ≠ []) :
    ∀ (n : Nat) (s : List Char), s.length ≤ n → join (splitLoop s d hd) d = s := by
  intro n
  induction n with
  | zero =>
    intro s hs
    have hs0 : s = [] := List.eq_nil_of_length_eq_zero (Nat.le_zero.mp hs)
    subst hs0
    have hf : findSub ([] : List Char) d = none := by
      cases d with
      | nil => exact absurd rfl hd
      | cons a l => rfl
    rw [splitLoop, hf]
    rfl
  | succ n ih =>
    intro s hs
    rw [splitLoop]
    cases hf : findSub s d with
    | none => rfl
    | some p =>
      show join (s.take p :: splitLoop (s.drop (p + d.length)) d hd) d = s
      have hb := findSub_some_bound hf
      have hdl : 1 ≤ d.length := List.length_pos.mpr hd
      have hlen : (s.drop (p + d.length)).length ≤ n := by
        simp only [List.length_drop]
        omega
      rw [join_cons_of_ne_nil (splitLoop_ne_nil _ _ hd)]
      rw [ih _ hlen]
      exact (findSub_some_decomp hf).symm

/-- C7: for a nonempty delimiter `d` whose occurrences do not appear inside
any split component, `join(split(s, d), d) = s`; and for every `s` and
nonempty `d`, `split(s, d)` yields at least one element. -/
theorem split_join_roundtrip (s d : List Char) (hd : d ≠ []) :
    ((∀ c ∈ split s d, contains c d = false) → join (split s d) d = s)
    ∧ 1 ≤ (split s d).length := by
  constructor
  · intro _
    unfold split
    rw [dif_neg hd]
    exact join_splitLoop d hd s.length s le_rfl
  · unfold split
    rw [dif_neg hd]
    exact List.length_pos.mpr (splitLoop_ne_nil s d hd)

theorem split_comma_ab :
    split "a,b".toList ",".toList = ["a".toList, "b".toList] := by
  have hd' : ",".toList ≠ ([] : List Char) := by decide
  have e0 : findSub "a,b".toList ",".toList = some 1 := by decide
  have e2 : findSub "b".toList ",".toList = (none : Option Nat) := by decide
  have e1 : splitLoop "a,b".toList ",".toList hd'
      = "a".toList :: splitLoop "b".toList ",".toList hd' := by
    rw [splitLoop, e0]
    rfl
  have e3 : splitLoop "b".toList ",".toList hd' = ["b".toList] := by
    rw [splitLoop, e2]
  unfold split
  rw [dif_neg hd', e1, e3]

/-- Witness for C7 at `s = "a,b"`, `d = ","`. -/
theorem split_join_roundtrip_witness :
    join (split "a,b".toList ",".toList) ",".toList = "a,b".toList
    ∧ 1 ≤ (split "a,b".toList ",".toList).length := by
  have hmem : ∀ c ∈ split "a,b".toList ",".toList, contains c ",".toList = false := by
    rw [split_comma_ab]
    decide
  exact ⟨(split_join_roundtrip _ _ (by decide)).1 hmem,
    (split_join_roundtrip _ _ (by decide)).2⟩

end ljos.str

namespace ljos.fs

theorem foldl_insert_eq_of_subset (l : List (List String)) :
    ∀ acc : List (List String), (∀ q ∈ l, q ∈ acc) →
      l.foldl (fun a q => if q ∈ a then a else a ++ [q]) acc = acc := by
  induction l with
  | nil => intro acc _; rfl
  | cons q t ih =>
    intro acc h
    have hq : q ∈ acc := h q (by simp)
    simp only [List.foldl_cons, if_pos hq]
    exact ih acc (fun x hx => h x (by simp [hx]))

/-- C4 counterexample: on a state where the directory `["a"]` exists,
`mkdirp ["a"]` returns `false`, not the true success indicator the claim
requires. -/
theorem mkdirp_existing_counterexample :
    isDir ⟨[["a"]]⟩ ["a"] = true ∧ (mkdirp ⟨[["a"]]⟩ ["a"]).1 ≠ true := by
  decide

/-- C4 (amended): on a well-formed state in which `p` already names a
directory, `mkdirp` raises no error and leaves the tree unchanged — it is
idempotent in effect — but it returns `false`: per
`std::filesystem::create_directories`, its Boolean reports whether a
directory was created, not success. -/
theorem mkdirp_existing_dir (fs : FS) (p : List String)
    (hwf : wf fs) (hp : isDir fs p = true) :
    (mkdirp fs p).1 = false ∧ (mkdirp fs p).2 = fs := by
  have hmem : p ∈ fs.dirs := by simpa [isDir] using hp
  constructor
  · simp [mkdirp, hmem]
  · simp only [mkdirp]
    have he := foldl_insert_eq_of_subset (prefixesOf p) fs.dirs
      (fun q hq => hwf p hmem q hq)
    cases fs with
    | mk dirs => simp_all

/-- Witness for C4's amended theorem on the one-directory state `[["a"]]`. -/
theorem mkdirp_existing_dir_witness :
    wf ⟨[["a"]]⟩ ∧ isDir ⟨[["a"]]⟩ ["a"] = true
    ∧ (mkdirp ⟨[["a"]]⟩ ["a"]).1 = false
    ∧ (mkdirp ⟨[["a"]]⟩ ["a"]).2 = (⟨[["a"]]⟩ : FS) := by
  have hwf : wf (⟨[["a"]]⟩ : FS) := by
    unfold wf
    decide
  exact ⟨hwf, by decide, (mkdirp_existing_dir _ _ hwf (by decide)).1,
    (mkdirp_existing_dir _ _ hwf (by decide)).2⟩

end ljos.fs

namespace ljos.math

/-- C8: after an equal seed, two runs starting from arbitrary (e.g.
`random_device`-initialized) engine states produce identical outputs for an
equal ordered sequence of draw calls; and `randomInt(n, n)` always returns
`n`, for every engine state. -/
theorem seeded_stream_deterministic (st1 st2 : MTState) (s : Nat)
    (calls : List DrawCall) :
    runCalls (seedOp st1 s) calls = runCalls (seedOp st2 s) calls
    ∧ ∀ (n : Int) (st : MTState), (randomInt n n st).1 = n := by
  refine ⟨rfl, fun n st => ?_⟩
  simp [randomInt]

end ljos.math
